import Mathlib

/-!
Verification of `goreplace` (src/main.go), a CLI that strips `replace`
directives from a go.mod-style manifest, matches find/replace rules against
the manifest's lines by substring containment, validates the replacement
paths, and appends fresh `replace <find> => <replace>` directives.

File contents are modelled as `List Char` (one `Char` per byte of the
original text).  Line splitting follows Go's `bufio.Scanner` with the
default `ScanLines` split function: tokens are cut at `'\n'`, a trailing
`'\r'` is removed from each token (`dropCR`), the final token before EOF is
emitted even without a terminating newline, and empty input yields no
tokens.
-/

namespace Goreplace

/-- The literal prefix tested by `strings.HasPrefix(line, "replace")`. -/
def replaceKeyword : List Char := "replace".data

/-- Go `bufio.dropCR`: drop a single terminal carriage return, if present. -/
def dropCR (l : List Char) : List Char :=
  if l.getLast? = some '\x0d' then l.dropLast else l

/-- Worker for `scanLines`: `cur` is the partial token read so far. -/
def scanLinesAux (cur : List Char) : List Char → List (List Char)
  | [] => [dropCR cur]
  | c :: rest =>
    if c = '\n' then
      dropCR cur :: (if rest.isEmpty then [] else scanLinesAux [] rest)
    else
      scanLinesAux (cur ++ [c]) rest

/-- Lines of a file as produced by `bufio.Scanner` with `bufio.ScanLines`. -/
def scanLines (s : List Char) : List (List Char) :=
  if s.isEmpty then [] else scanLinesAux [] s

/-- Go struct `FindReplace`, one record of the yaml rule configuration. -/
structure FindReplace where
  find : List Char
  replace : List Char
deriving DecidableEq, Repr

/-- Go `strings.Contains(hay, needle)`: substring containment. -/
def substrB (needle : List Char) : List Char → Bool
  | [] => needle.isEmpty
  | c :: rest => needle.isPrefixOf (c :: rest) || substrB needle rest

/-- Go `findMatchesInFile`: scan the manifest line by line and, for each
line, append every rule whose find-string the line contains. -/
def findMatchesInFile (content : List Char) (find : List FindReplace) :
    List FindReplace :=
  (scanLines content).foldl
    (fun found line =>
      find.foldl
        (fun found cmd =>
          if substrB cmd.find line then found ++ [cmd] else found)
        found)
    []

/-- Outcome of `os.Stat` on a path, as far as `dirExists` inspects it. -/
inductive StatOutcome where
  | notExists
  | statErr (msg : List Char)
  | file
  | dir
deriving DecidableEq, Repr

/-- Go `dirExists`: `(false, nil)` when the path does not exist, the stat
error when stat fails otherwise, else `(info.IsDir(), nil)`.  The
filesystem is an explicit parameter `fs`. -/
def dirExists (fs : List Char → StatOutcome) (path : List Char) :
    Except (List Char) Bool :=
  match fs path with
  | .notExists => .ok false
  | .statErr m => .error m
  | .file => .ok false
  | .dir => .ok true

/-- Go `strings.Join(xs, sep)`. -/
def goJoin (sep : List Char) : List (List Char) → List Char
  | [] => []
  | [x] => x
  | x :: y :: rest => x ++ sep ++ goJoin sep (y :: rest)

/-- Header of the aggregated validation error message. -/
def errHeader : List Char := "replace module error(s) or missing:\n".data

/-- Go `validateLocalReposExist`: collect every stat error or missing path
over the match set; report them all joined by newlines, or succeed
(`none`). -/
def validateLocalReposExist (fs : List Char → StatOutcome)
    (replace : List FindReplace) : Option (List Char) :=
  let missing := replace.foldl
    (fun missing cmd =>
      match dirExists fs cmd.replace with
      | .error e => missing ++ [e]
      | .ok b => if !b then missing ++ [cmd.replace] else missing)
    []
  if missing.length ≠ 0 then some (errHeader ++ goJoin ['\n'] missing)
  else none

/-- The entry the validator records for one rule: the stat error message,
the missing path, or nothing when the path is a directory. -/
def missingEntry (fs : List Char → StatOutcome) (cmd : FindReplace) :
    Option (List Char) :=
  match dirExists fs cmd.replace with
  | .error e => some e
  | .ok false => some cmd.replace
  | .ok true => none

/-- All entries the validator records, in match-set order. -/
def missingEntries (fs : List Char → StatOutcome)
    (replace : List FindReplace) : List (List Char) :=
  replace.filterMap (missingEntry fs)

/-- Bytes of `fmt.Sprintf("replace %s => %s\n", cmd.Find, cmd.Replace)`. -/
def replaceLine (cmd : FindReplace) : List Char :=
  "replace ".data ++ cmd.find ++ " => ".data ++ cmd.replace ++ ['\n']

/-- Go `appendModReplace`: copy the manifest bytes, then append one
`replace <find> => <replace>` line per match-set entry. -/
def appendModReplace (content : List Char) (replace : List FindReplace) :
    List Char :=
  replace.foldl (fun temp cmd => temp ++ replaceLine cmd) content

/-- Go `deleteLinesWithReplace`: write every scanned line that does not
start with `replace` to the fresh file, each terminated by `'\n'`. -/
def deleteLinesWithReplace (content : List Char) : List Char :=
  (scanLines content).foldl
    (fun temp line =>
      if !(replaceKeyword.isPrefixOf line) then temp ++ (line ++ ['\n'])
      else temp)
    []

/-- Observable outcome of one run of the program: the final manifest
bytes, the process exit code, and the fatal error message if any. -/
structure RunResult where
  manifest : List Char
  exitCode : Nat
  errMsg : Option (List Char)
deriving DecidableEq, Repr

/-- Go `main` after flag parsing: strip, stop if `-clean`, read the rule
config (`config`, an `Except` because yaml parsing can fail), match,
validate, append.  `log.Fatal` is exit code 1 with the error recorded. -/
def mainRun (clean : Bool) (manifest : List Char)
    (config : Except (List Char) (List FindReplace))
    (fs : List Char → StatOutcome) : RunResult :=
  let m1 := deleteLinesWithReplace manifest
  if clean then ⟨m1, 0, none⟩
  else
    match config with
    | .error e => ⟨m1, 1, some e⟩
    | .ok rules =>
      let matched := findMatchesInFile m1 rules
      match validateLocalReposExist fs matched with
      | some e => ⟨m1, 1, some e⟩
      | none => ⟨appendModReplace m1 matched, 0, none⟩

/-! ### Fold characterizations -/

/-- The inner rule loop of `findMatchesInFile` appends the filtered rules. -/
theorem findMatches_inner (find : List FindReplace) (line : List Char)
    (acc : List FindReplace) :
    find.foldl
      (fun found cmd =>
        if substrB cmd.find line then found ++ [cmd] else found) acc
      = acc ++ find.filter (fun cmd => substrB cmd.find line) :=
by
  induction find generalizing acc with
  | nil => simp
  | cons hd tl ih =>
    by_cases h : substrB hd.find line
    · simp [List.filter_cons, h, ih, List.append_assoc]
    · simp [List.filter_cons, h, ih]

/-- Closed form of `findMatchesInFile`: outer loop over lines, inner
filter over rules, results concatenated. -/
theorem findMatchesInFile_eq (content : List Char)
    (find : List FindReplace) :
    findMatchesInFile content find
      = (scanLines content).flatMap
          (fun line => find.filter (fun cmd => substrB cmd.find line)) :=
by
  unfold findMatchesInFile
  suffices h : ∀ (lines : List (List Char)) (acc : List FindReplace),
      lines.foldl
        (fun found line =>
          find.foldl
            (fun found cmd =>
              if substrB cmd.find line then found ++ [cmd] else found)
            found) acc
        = acc ++ lines.flatMap
            (fun line => find.filter (fun cmd => substrB cmd.find line)) by
    simpa using h (scanLines content) []
  intro lines
  induction lines with
  | nil => simp
  | cons hd tl ih =>
    intro acc
    simp only [List.foldl_cons]
    rw [findMatches_inner, ih, List.flatMap_cons, List.append_assoc]

/-- Closed form of `deleteLinesWithReplace`: kept lines, each terminated
by a fresh newline, concatenated. -/
theorem deleteLinesWithReplace_eq (content : List Char) :
    deleteLinesWithReplace content
      = (((scanLines content).filter
            (fun l => !(replaceKeyword.isPrefixOf l))).map
          (fun l => l ++ ['\n'])).flatten :=
by
  unfold deleteLinesWithReplace
  suffices h : ∀ (lines : List (List Char)) (acc : List Char),
      lines.foldl
        (fun temp line =>
          if !(replaceKeyword.isPrefixOf line) then temp ++ (line ++ ['\n'])
          else temp) acc
        = acc ++ ((lines.filter
            (fun l => !(replaceKeyword.isPrefixOf l))).map
            (fun l => l ++ ['\n'])).flatten by
    simpa using h (scanLines content) []
  intro lines
  induction lines with
  | nil => simp
  | cons hd tl ih =>
    intro acc
    simp only [List.foldl_cons]
    rw [ih]
    by_cases h : replaceKeyword.isPrefixOf hd
    · simp [List.filter_cons, h]
    · simp [List.filter_cons, h, List.append_assoc]

/-- Closed form of `appendModReplace`: the old bytes, then one rendered
directive per match-set entry, in order. -/
theorem appendModReplace_eq (content : List Char)
    (replace : List FindReplace) :
    appendModReplace content replace
      = content ++ replace.flatMap replaceLine :=
by
  unfold appendModReplace
  induction replace generalizing content with
  | nil => simp
  | cons hd tl ih => simp [ih, List.append_assoc]

/-- The validator's accumulator loop collects exactly `missingEntries`. -/
theorem validate_foldl (fs : List Char → StatOutcome)
    (replace : List FindReplace) (acc : List (List Char)) :
    replace.foldl
      (fun missing cmd =>
        match dirExists fs cmd.replace with
        | .error e => missing ++ [e]
        | .ok b => if !b then missing ++ [cmd.replace] else missing) acc
      = acc ++ missingEntries fs replace :=
by
  induction replace generalizing acc with
  | nil => simp [missingEntries]
  | cons hd tl ih =>
    simp only [List.foldl_cons]
    rw [ih]
    rcases h : dirExists fs hd.replace with e | b
    · simp [missingEntries, missingEntry, h, List.append_assoc]
    · cases b <;> simp [missingEntries, missingEntry, h, List.append_assoc]

/-- Closed form of `validateLocalReposExist`. -/
theorem validateLocalReposExist_eq (fs : List Char → StatOutcome)
    (replace : List FindReplace) :
    validateLocalReposExist fs replace
      = if missingEntries fs replace = [] then none
        else some (errHeader ++ goJoin ['\n'] (missingEntries fs replace)) :=
by
  unfold validateLocalReposExist
  rw [validate_foldl]
  simp only [List.nil_append]
  by_cases h : missingEntries fs replace = []
  · simp [h]
  · simp [h, List.length_eq_zero]

/-! ### Prefix and substring lemmas -/

/-- A prefix of `t` is also a prefix of `t ++ u`. -/
theorem isPrefixOf_append_right (p t u : List Char)
    (h : p.isPrefixOf t = true) : p.isPrefixOf (t ++ u) = true :=
by
  induction p generalizing t with
  | nil => simp [List.isPrefixOf]
  | cons a p' ih =>
    cases t with
    | nil => simp [List.isPrefixOf] at h
    | cons b t' =>
      simp only [List.isPrefixOf, Bool.and_eq_true] at h
      simp only [List.cons_append, List.isPrefixOf, Bool.and_eq_true]
      exact ⟨h.1, ih t' h.2⟩

/-- Every list extends its own `dropCR`. -/
theorem dropCR_append_exists (l : List Char) : ∃ u, l = dropCR l ++ u :=
by
  unfold dropCR
  by_cases h : l.getLast? = some '\x0d'
  · have hne : l ≠ [] := by
      intro e
      subst e
      simp at h
    exact ⟨[l.getLast hne], by
      simp only [h, if_pos]
      exact (List.dropLast_append_getLast hne).symm⟩
  · exact ⟨[], by simp [h]⟩

/-- A prefix of `dropCR l` is a prefix of `l`. -/
theorem isPrefixOf_dropCR (p l : List Char)
    (h : p.isPrefixOf (dropCR l) = true) : p.isPrefixOf l = true :=
by
  obtain ⟨u, hu⟩ := dropCR_append_exists l
  rw [hu]
  exact isPrefixOf_append_right p (dropCR l) u h

/-- Every list is a prefix of itself followed by anything. -/
theorem isPrefixOf_self_append (l u : List Char) :
    l.isPrefixOf (l ++ u) = true :=
by
  induction l with
  | nil => simp [List.isPrefixOf]
  | cons a l' ih => simp [List.isPrefixOf, ih]

/-- The empty needle is contained in every haystack. -/
theorem substrB_nil (l : List Char) : substrB [] l = true :=
by
  cases l <;> simp [substrB, List.isPrefixOf]

/-- A needle occurring by explicit decomposition is found by `substrB`. -/
theorem substrB_of_decomp (n a b : List Char) :
    substrB n (a ++ (n ++ b)) = true :=
by
  induction a with
  | nil =>
    cases n with
    | nil => simpa using substrB_nil b
    | cons c t =>
      simp only [List.nil_append, List.cons_append, substrB]
      have := isPrefixOf_self_append (c :: t) b
      simp only [List.cons_append] at this
      simp [this]
  | cons c a' ih =>
    simp only [List.cons_append, substrB]
    simp [ih]

/-- Membership in a `goJoin` decomposes the joined list around the member. -/
theorem goJoin_mem_decomp (sep x : List Char) (xs : List (List Char))
    (h : x ∈ xs) : ∃ a b, goJoin sep xs = a ++ (x ++ b) :=
by
  induction xs with
  | nil => simp at h
  | cons y ys ih =>
    cases ys with
    | nil =>
      simp only [List.mem_singleton] at h
      subst h
      exact ⟨[], [], by simp [goJoin]⟩
    | cons z zs =>
      rcases List.mem_cons.mp h with h1 | h2
      · subst h1
        exact ⟨[], sep ++ goJoin sep (z :: zs), by
          simp [goJoin, List.append_assoc]⟩
      · obtain ⟨a, b, hab⟩ := ih h2
        exact ⟨y ++ sep ++ a, b, by
          simp [goJoin, hab, List.append_assoc]⟩

/-! ### Scanner lemmas -/

/-- Membership survives `dropCR`. -/
theorem mem_dropCR {x : Char} {l : List Char} (h : x ∈ dropCR l) : x ∈ l :=
by
  unfold dropCR at h
  by_cases hg : l.getLast? = some '\x0d'
  · rw [if_pos hg] at h
    exact List.dropLast_subset l h
  · rwa [if_neg hg] at h

/-- Tokens produced by the scanner worker contain no newline, provided the
partial token does not. -/
theorem scanLinesAux_no_newline (rest : List Char) :
    ∀ cur : List Char, '\n' ∉ cur →
      ∀ l ∈ scanLinesAux cur rest, '\n' ∉ l :=
by
  induction rest with
  | nil =>
    intro cur hcur l hl
    simp only [scanLinesAux, List.mem_singleton] at hl
    subst hl
    exact fun hmem => hcur (mem_dropCR hmem)
  | cons c rest' ih =>
    intro cur hcur l hl
    simp only [scanLinesAux] at hl
    by_cases hc : c = '\n'
    · rw [if_pos hc] at hl
      rcases List.mem_cons.mp hl with h1 | h2
      · subst h1
        exact fun hmem => hcur (mem_dropCR hmem)
      · by_cases he : rest'.isEmpty
        · rw [if_pos he] at h2
          simp at h2
        · rw [if_neg he] at h2
          exact ih [] (by simp) l h2
    · rw [if_neg hc] at hl
      refine ih (cur ++ [c]) ?_ l hl
      intro hmem
      rcases List.mem_append.mp hmem with h1 | h2
      · exact hcur h1
      · simp only [List.mem_singleton] at h2
        exact hc h2.symm

/-- No scanned line contains a newline character. -/
theorem scanLines_no_newline (content : List Char) :
    ∀ l ∈ scanLines content, '\n' ∉ l :=
by
  intro l hl
  unfold scanLines at hl
  by_cases he : content.isEmpty
  · rw [if_pos he] at hl
    simp at hl
  · rw [if_neg he] at hl
    exact scanLinesAux_no_newline content [] (by simp) l hl

/-- Scanning a newline-free token followed by `'\n'` emits `dropCR` of the
accumulated token and continues. -/
theorem scanLinesAux_append (l : List Char) (hl : '\n' ∉ l) :
    ∀ cur rest : List Char,
      scanLinesAux cur (l ++ '\n' :: rest)
        = dropCR (cur ++ l)
            :: (if rest.isEmpty then [] else scanLinesAux [] rest) :=
by
  induction l with
  | nil =>
    intro cur rest
    simp [scanLinesAux]
  | cons c l' ih =>
    intro cur rest
    have hc : c ≠ '\n' := fun e => hl (by simp [e])
    have hl' : '\n' ∉ l' := fun e => hl (by simp [e])
    simp only [List.cons_append, scanLinesAux, if_neg hc, List.append_eq]
    rw [ih hl' (cur ++ [c]) rest, List.append_assoc]
    simp

/-- Rescanning a file written as newline-terminated newline-free tokens
recovers the tokens, each passed through `dropCR` once more. -/
theorem scanLines_flatten (ks : List (List Char))
    (h : ∀ k ∈ ks, '\n' ∉ k) :
    scanLines ((ks.map (fun k => k ++ ['\n'])).flatten) = ks.map dropCR :=
by
  induction ks with
  | nil => simp [scanLines]
  | cons k ks ih =>
    have hk : '\n' ∉ k := h k (List.mem_cons_self k ks)
    have hks : ∀ k' ∈ ks, '\n' ∉ k' :=
      fun k' hm => h k' (List.mem_cons_of_mem k hm)
    simp only [List.map_cons, List.flatten_cons]
    have harr : (k ++ ['\n']) ++ (ks.map (fun x => x ++ ['\n'])).flatten
        = k ++ '\n' :: (ks.map (fun x => x ++ ['\n'])).flatten := by
      simp [List.append_assoc]
    rw [harr]
    have hne : (k ++ '\n' :: (ks.map (fun x => x ++ ['\n'])).flatten).isEmpty
        = false := by
      cases k <;> simp
    unfold scanLines
    rw [if_neg (by simp [hne])]
    rw [scanLinesAux_append k hk [] _]
    cases ks with
    | nil => simp
    | cons k2 ks2 =>
      have hrne : (((k2 :: ks2).map (fun x => x ++ ['\n'])).flatten).isEmpty
          = false := by
        cases k2 <;> simp
      rw [if_neg (by simp [hrne])]
      have hsc : scanLinesAux []
            (((k2 :: ks2).map (fun x => x ++ ['\n'])).flatten)
          = scanLines (((k2 :: ks2).map (fun x => x ++ ['\n'])).flatten) := by
        unfold scanLines
        rw [if_neg (by simp [hrne])]
      rw [hsc, ih hks]
      simp

/-- Lines of the stripped manifest: the kept lines, `dropCR`ed once more
by the rescan. -/
theorem strip_scanLines (content : List Char) :
    scanLines (deleteLinesWithReplace content)
      = ((scanLines content).filter
          (fun l => !(replaceKeyword.isPrefixOf l))).map dropCR :=
by
  rw [deleteLinesWithReplace_eq]
  exact scanLines_flatten _
    (fun k hk => scanLines_no_newline content k (List.mem_of_mem_filter hk))

/-- No line of the stripped manifest starts with `replace`. -/
theorem noReplace_strip (content : List Char) :
    ∀ l ∈ scanLines (deleteLinesWithReplace content),
      replaceKeyword.isPrefixOf l = false :=
by
  intro l hl
  rw [strip_scanLines] at hl
  obtain ⟨k, hk, rfl⟩ := List.mem_map.mp hl
  have hkf : replaceKeyword.isPrefixOf k = false := by
    simpa using (List.mem_filter.mp hk).2
  cases hd : replaceKeyword.isPrefixOf (dropCR k) with
  | false => rfl
  | true =>
    have := isPrefixOf_dropCR replaceKeyword k hd
    rw [this] at hkf
    exact absurd hkf (by simp)

/-! ### Counting lemmas for the matcher -/

/-- Counting an element in a filtered rule list. -/
theorem count_filter_rules (cmd : FindReplace) (find : List FindReplace)
    (p : FindReplace → Bool) :
    (find.filter p).count cmd = if p cmd then find.count cmd else 0 :=
by
  induction find with
  | nil => simp
  | cons hd tl ih =>
    by_cases hp : p hd
    · rw [List.filter_cons, if_pos (by simpa using hp), List.count_cons, ih]
      by_cases he : hd = cmd
      · subst he
        simp [hp, List.count_cons]
      · have hbe : (hd == cmd) = false := by simp [he]
        simp [hbe, List.count_cons]
    · rw [List.filter_cons, if_neg (by simpa using hp), ih]
      by_cases hc : p cmd
      · have hne : (hd == cmd) = false := by
          simp only [beq_eq_false_iff_ne, ne_eq]
          intro e
          exact hp (e ▸ hc)
        simp [hc, List.count_cons, hne]
      · simp [hc]

/-- Counting an element of a concatenation of per-line contributions. -/
theorem count_flatMap (cmd : FindReplace) (lines : List (List Char))
    (g : List Char → List FindReplace) :
    (lines.flatMap g).count cmd
      = (lines.map (fun l => (g l).count cmd)).sum :=
by
  induction lines with
  | nil => simp
  | cons hd tl ih => simp [List.flatMap_cons, List.count_append, ih]

/-- Summing a constant over the lines satisfying a predicate. -/
theorem sum_if_countP (lines : List (List Char)) (q : List Char → Bool)
    (n : Nat) :
    (lines.map (fun l => if q l then n else 0)).sum = lines.countP q * n :=
by
  induction lines with
  | nil => simp
  | cons hd tl ih =>
    by_cases h : q hd
    · simp only [List.map_cons, List.sum_cons, if_pos h, ih,
        List.countP_cons, if_pos h]
      ring
    · simp [h, ih, List.countP_cons]

/-- A rule contributes no missing entry exactly when its path stats as a
directory. -/
theorem missingEntry_eq_none_iff (fs : List Char → StatOutcome)
    (cmd : FindReplace) :
    missingEntry fs cmd = none ↔ dirExists fs cmd.replace = Except.ok true :=
by
  unfold missingEntry
  rcases h : dirExists fs cmd.replace with e | b
  · simp [h]
  · cases b <;> simp [h]

/-- When validation reports an error, the run stops with exit code 1 and
the post-strip manifest. -/
theorem mainRun_validate_some (m : List Char) (rules : List FindReplace)
    (fs : List Char → StatOutcome) (e : List Char)
    (h : validateLocalReposExist fs
        (findMatchesInFile (deleteLinesWithReplace m) rules) = some e) :
    mainRun false m (Except.ok rules) fs
      = ⟨deleteLinesWithReplace m, 1, some e⟩ :=
by
  unfold mainRun
  rw [if_neg (by simp)]
  simp only [h]

/-- When validation succeeds, the run appends the directives and exits
zero. -/
theorem mainRun_validate_none (m : List Char) (rules : List FindReplace)
    (fs : List Char → StatOutcome)
    (h : validateLocalReposExist fs
        (findMatchesInFile (deleteLinesWithReplace m) rules) = none) :
    mainRun false m (Except.ok rules) fs
      = ⟨appendModReplace (deleteLinesWithReplace m)
            (findMatchesInFile (deleteLinesWithReplace m) rules), 0, none⟩ :=
by
  unfold mainRun
  rw [if_neg (by simp)]
  simp only [h]

/-- Flattening equal singleton contributions yields a replicate. -/
theorem flatten_map_const_singleton (xs : List (List Char))
    (x : FindReplace) :
    ((xs.map (fun _ => [x])).flatten) = List.replicate xs.length x :=
by
  induction xs with
  | nil => simp
  | cons hd tl ih => simp [ih, List.replicate_succ]

/-! ### Claim theorems -/

/-- C1: the match set lists, grouped by manifest line (outer loop) and in
configuration order within a line (inner loop), each rule once per line
containing its find-string; so each rule occurs `(lines containing it) *
(its multiplicity in the configuration)` times, zero when absent. -/
theorem C1_matcher_once_per_line (content : List Char)
    (find : List FindReplace) :
    findMatchesInFile content find
      = (scanLines content).flatMap
          (fun line => find.filter (fun cmd => substrB cmd.find line))
    ∧ ∀ cmd : FindReplace,
        (findMatchesInFile content find).count cmd
          = (scanLines content).countP
              (fun line => substrB cmd.find line) * find.count cmd :=
by
  refine ⟨findMatchesInFile_eq content find, fun cmd => ?_⟩
  rw [findMatchesInFile_eq, count_flatMap]
  have h1 : ∀ l ∈ scanLines content,
      (List.filter (fun c => substrB c.find l) find).count cmd
        = if substrB cmd.find l then find.count cmd else 0 :=
    fun l _ => count_filter_rules cmd find _
  rw [List.map_congr_left h1, sum_if_countP]

/-- C2 (counterexample): on the manifest bytes `"a\x0d\x0d\n"` the lines
after stripping are not the kept original lines — the scanned line
`"a\x0d"` is rewritten to `"a"`. -/
theorem C2_counterexample :
    scanLines (deleteLinesWithReplace ("a\x0d\x0d\n".data))
      ≠ (scanLines ("a\x0d\x0d\n".data)).filter
          (fun l => !(replaceKeyword.isPrefixOf l)) := by decide

/-- C2 (amended): after stripping, the manifest's lines are exactly the
original lines not starting with `replace`, in order, each with any
trailing carriage return removed; no remaining line starts with
`replace`. -/
theorem C2_strip_lines_amended (content : List Char) :
    scanLines (deleteLinesWithReplace content)
      = ((scanLines content).filter
          (fun l => !(replaceKeyword.isPrefixOf l))).map dropCR
    ∧ ∀ l ∈ scanLines (deleteLinesWithReplace content),
        replaceKeyword.isPrefixOf l = false :=
  ⟨strip_scanLines content, noReplace_strip content⟩

/-- C2 (witness): the amended statement evaluated on a concrete
manifest. -/
theorem C2_strip_lines_amended_witness :
    scanLines (deleteLinesWithReplace ("a\nreplace x\n".data))
      = ((scanLines ("a\nreplace x\n".data)).filter
          (fun l => !(replaceKeyword.isPrefixOf l))).map dropCR
    ∧ replaceKeyword.isPrefixOf ['a'] = false :=
  ⟨(C2_strip_lines_amended ("a\nreplace x\n".data)).1,
   (C2_strip_lines_amended ("a\nreplace x\n".data)).2 ['a'] (by decide)⟩

/-- C3: appending is additive — the prior manifest bytes verbatim,
followed by exactly one rendered `replace <find> => <replace>` line per
match-set entry, in match-set order. -/
theorem C3_append_additive (content : List Char)
    (replace : List FindReplace) :
    appendModReplace content replace
      = content ++ (replace.map replaceLine).flatten :=
by
  rw [appendModReplace_eq, List.flatMap_def]

/-- C6 (counterexample): stripping is not idempotent — on the manifest
bytes `"a\x0d\x0d\n"` the first strip yields `"a\x0d\n"` and the second
strips the carriage return again. -/
theorem C6_counterexample :
    deleteLinesWithReplace (deleteLinesWithReplace ("a\x0d\x0d\n".data))
      ≠ deleteLinesWithReplace ("a\x0d\x0d\n".data) := by decide

/-- C6 (amended): stripping is idempotent on every manifest none of whose
scanned lines ends with a carriage return. -/
theorem C6_strip_idempotent_amended (content : List Char)
    (h : ∀ l ∈ scanLines content, dropCR l = l) :
    deleteLinesWithReplace (deleteLinesWithReplace content)
      = deleteLinesWithReplace content :=
by
  conv_lhs => rw [deleteLinesWithReplace_eq]
  rw [strip_scanLines]
  have hall : ∀ l ∈ (scanLines content).filter
      (fun l => !(replaceKeyword.isPrefixOf l)), dropCR l = l :=
    fun l hl => h l (List.mem_of_mem_filter hl)
  have hmap : ((scanLines content).filter
        (fun l => !(replaceKeyword.isPrefixOf l))).map dropCR
      = (scanLines content).filter
          (fun l => !(replaceKeyword.isPrefixOf l)) := by
    rw [List.map_congr_left hall]
    simp
  rw [hmap]
  have hfil : ((scanLines content).filter
        (fun l => !(replaceKeyword.isPrefixOf l))).filter
          (fun l => !(replaceKeyword.isPrefixOf l))
      = (scanLines content).filter
          (fun l => !(replaceKeyword.isPrefixOf l)) :=
    List.filter_eq_self.mpr (fun a ha => (List.mem_filter.mp ha).2)
  rw [hfil, ← deleteLinesWithReplace_eq]

/-- C6 (witness): idempotence on a concrete carriage-return-free
manifest. -/
theorem C6_strip_idempotent_amended_witness :
    deleteLinesWithReplace (deleteLinesWithReplace ("a\nreplace x\n".data))
      = deleteLinesWithReplace ("a\nreplace x\n".data) :=
  C6_strip_idempotent_amended ("a\nreplace x\n".data) (by decide)

/-- C10: the stripper does not keep retained lines byte-for-byte — every
kept line is written back as its scanned token plus a single `'\n'`, so a
final line without a newline gains one, the `'\x0d'` of a CRLF ending is
dropped, and the bytes of a non-`replace` line can change. -/
theorem C10_strip_rewrites_bytes :
    (∀ content : List Char,
      deleteLinesWithReplace content
        = (((scanLines content).filter
            (fun l => !(replaceKeyword.isPrefixOf l))).map
            (fun l => l ++ ['\n'])).flatten)
    ∧ deleteLinesWithReplace ("b".data) = "b\n".data
    ∧ deleteLinesWithReplace ("b\x0d\n".data) = "b\n".data
    ∧ deleteLinesWithReplace ("b\x0d\n".data) ≠ "b\x0d\n".data :=
  ⟨deleteLinesWithReplace_eq, by decide, by decide, by decide⟩

/-- C4: validation errs iff some matched rule's path fails to stat as a
directory; it aggregates all failures into one report whose message
contains every offending path or stat error, newline-separated. -/
theorem C4_validation_aggregates (fs : List Char → StatOutcome)
    (replace : List FindReplace) :
    (validateLocalReposExist fs replace = none
      ↔ ∀ cmd ∈ replace, dirExists fs cmd.replace = Except.ok true)
    ∧ validateLocalReposExist fs replace
        = (if missingEntries fs replace = [] then none
           else some (errHeader ++ goJoin ['\n'] (missingEntries fs replace)))
    ∧ ∀ cmd ∈ replace, ∀ e, missingEntry fs cmd = some e →
        ∃ msg, validateLocalReposExist fs replace = some msg
          ∧ substrB e msg = true :=
by
  refine ⟨?_, validateLocalReposExist_eq fs replace, ?_⟩
  · rw [validateLocalReposExist_eq]
    constructor
    · intro h
      by_cases hm : missingEntries fs replace = []
      · intro cmd hc
        have hn : missingEntry fs cmd = none :=
          List.filterMap_eq_nil_iff.mp hm cmd hc
        exact (missingEntry_eq_none_iff fs cmd).mp hn
      · rw [if_neg hm] at h
        simp at h
    · intro h
      have hm : missingEntries fs replace = [] :=
        List.filterMap_eq_nil_iff.mpr
          (fun cmd hc => (missingEntry_eq_none_iff fs cmd).mpr (h cmd hc))
      rw [if_pos hm]
  · intro cmd hc e he
    have hmem : e ∈ missingEntries fs replace :=
      List.mem_filterMap.mpr ⟨cmd, hc, he⟩
    have hne : missingEntries fs replace ≠ [] := by
      intro hnil
      rw [hnil] at hmem
      simp at hmem
    obtain ⟨a, b, hab⟩ := goJoin_mem_decomp ['\n'] e _ hmem
    refine ⟨errHeader ++ goJoin ['\n'] (missingEntries fs replace), ?_, ?_⟩
    · rw [validateLocalReposExist_eq, if_neg hne]
    · rw [hab, ← List.append_assoc]
      exact substrB_of_decomp e (errHeader ++ a) b

/-- C4 (witness): one missing path yields an error naming it. -/
theorem C4_validation_aggregates_witness :
    ∃ msg, validateLocalReposExist (fun _ => StatOutcome.notExists)
        [⟨"f".data, "p".data⟩] = some msg
      ∧ substrB "p".data msg = true :=
  (C4_validation_aggregates (fun _ => StatOutcome.notExists)
      [⟨"f".data, "p".data⟩]).2.2
    ⟨"f".data, "p".data⟩ (by simp) "p".data (by decide)

/-- C5: with a matched rule whose path does not stat as a directory, the
run exits nonzero with the manifest in its post-strip state (nothing
appended), and the error message names the missing path. -/
theorem C5_missing_path_aborts (m : List Char) (rules : List FindReplace)
    (fs : List Char → StatOutcome) (cmd : FindReplace)
    (hmem : cmd ∈ findMatchesInFile (deleteLinesWithReplace m) rules)
    (hdir : dirExists fs cmd.replace = Except.ok false) :
    (mainRun false m (Except.ok rules) fs).exitCode = 1
    ∧ (mainRun false m (Except.ok rules) fs).manifest
        = deleteLinesWithReplace m
    ∧ ∃ msg, (mainRun false m (Except.ok rules) fs).errMsg = some msg
        ∧ substrB cmd.replace msg = true :=
by
  have hentry : missingEntry fs cmd = some cmd.replace := by
    unfold missingEntry
    rw [hdir]
  have hmem2 : cmd.replace ∈ missingEntries fs
      (findMatchesInFile (deleteLinesWithReplace m) rules) :=
    List.mem_filterMap.mpr ⟨cmd, hmem, hentry⟩
  have hne : missingEntries fs
      (findMatchesInFile (deleteLinesWithReplace m) rules) ≠ [] := by
    intro hnil
    rw [hnil] at hmem2
    simp at hmem2
  have hval : validateLocalReposExist fs
      (findMatchesInFile (deleteLinesWithReplace m) rules)
      = some (errHeader ++ goJoin ['\n'] (missingEntries fs
          (findMatchesInFile (deleteLinesWithReplace m) rules))) := by
    rw [validateLocalReposExist_eq, if_neg hne]
  rw [mainRun_validate_some m rules fs _ hval]
  obtain ⟨a, b, hab⟩ := goJoin_mem_decomp ['\n'] cmd.replace _ hmem2
  refine ⟨rfl, rfl, errHeader ++ goJoin ['\n'] (missingEntries fs
      (findMatchesInFile (deleteLinesWithReplace m) rules)), rfl, ?_⟩
  rw [hab, ← List.append_assoc]
  exact substrB_of_decomp cmd.replace (errHeader ++ a) b

/-- C5 (witness): a matched rule with a nonexistent path on a concrete
manifest. -/
theorem C5_missing_path_aborts_witness :
    (mainRun false ("require foo\n".data)
        (Except.ok [⟨"foo".data, "bar".data⟩])
        (fun _ => StatOutcome.notExists)).exitCode = 1
    ∧ (mainRun false ("require foo\n".data)
        (Except.ok [⟨"foo".data, "bar".data⟩])
        (fun _ => StatOutcome.notExists)).manifest
        = deleteLinesWithReplace ("require foo\n".data)
    ∧ ∃ msg, (mainRun false ("require foo\n".data)
        (Except.ok [⟨"foo".data, "bar".data⟩])
        (fun _ => StatOutcome.notExists)).errMsg = some msg
        ∧ substrB (FindReplace.mk "foo".data "bar".data).replace msg
            = true :=
  C5_missing_path_aborts ("require foo\n".data)
    [⟨"foo".data, "bar".data⟩] (fun _ => StatOutcome.notExists)
    ⟨"foo".data, "bar".data⟩ (by decide) rfl

/-- C7: with `-clean` set, the run only strips and exits zero, whatever
the configuration (even an unreadable one) and filesystem; no line of the
resulting manifest starts with `replace`. -/
theorem C7_clean_only_strips (m : List Char)
    (config : Except (List Char) (List FindReplace))
    (fs : List Char → StatOutcome) :
    mainRun true m config fs = ⟨deleteLinesWithReplace m, 0, none⟩
    ∧ ∀ l ∈ scanLines (mainRun true m config fs).manifest,
        replaceKeyword.isPrefixOf l = false :=
by
  have h1 : mainRun true m config fs = ⟨deleteLinesWithReplace m, 0, none⟩ :=
    rfl
  refine ⟨h1, ?_⟩
  rw [h1]
  exact noReplace_strip m

/-- C7 (witness): clean mode on a manifest with a `replace` line, under a
failing configuration. -/
theorem C7_clean_only_strips_witness :
    mainRun true ("replace a\nb\n".data) (Except.error [])
        (fun _ => StatOutcome.notExists)
      = ⟨"b\n".data, 0, none⟩
    ∧ replaceKeyword.isPrefixOf ['b'] = false :=
by
  have h := C7_clean_only_strips ("replace a\nb\n".data) (Except.error [])
      (fun _ => StatOutcome.notExists)
  refine ⟨?_, h.2 ['b'] (by decide)⟩
  rw [h.1]
  decide

/-- C8: when no rule's find-string occurs in any post-strip manifest
line, matching yields the empty set, validation succeeds, nothing is
appended, and the run exits zero. -/
theorem C8_empty_match_ok (m : List Char) (rules : List FindReplace)
    (fs : List Char → StatOutcome)
    (h : ∀ cmd ∈ rules, ∀ l ∈ scanLines (deleteLinesWithReplace m),
        substrB cmd.find l = false) :
    findMatchesInFile (deleteLinesWithReplace m) rules = []
    ∧ validateLocalReposExist fs
        (findMatchesInFile (deleteLinesWithReplace m) rules) = none
    ∧ mainRun false m (Except.ok rules) fs
        = ⟨deleteLinesWithReplace m, 0, none⟩ :=
by
  have hmatch : findMatchesInFile (deleteLinesWithReplace m) rules = [] := by
    rw [findMatchesInFile_eq]
    have hline : ∀ l ∈ scanLines (deleteLinesWithReplace m),
        rules.filter (fun cmd => substrB cmd.find l) = ([] : List FindReplace) :=
      fun l hl => List.filter_eq_nil_iff.mpr
        (fun cmd hc => by simp [h cmd hc l hl])
    rw [List.flatMap_def, List.map_congr_left hline]
    simp
  have hval : validateLocalReposExist fs ([] : List FindReplace) = none := by
    simp [validateLocalReposExist]
  refine ⟨hmatch, by rw [hmatch]; exact hval, ?_⟩
  rw [mainRun_validate_none m rules fs (by rw [hmatch]; exact hval), hmatch]
  rfl

/-- C8 (witness): a rule matching nothing on a concrete manifest. -/
theorem C8_empty_match_ok_witness :
    findMatchesInFile (deleteLinesWithReplace ("require foo\n".data))
        [⟨"zzz".data, "p".data⟩] = []
    ∧ validateLocalReposExist (fun _ => StatOutcome.notExists)
        (findMatchesInFile (deleteLinesWithReplace ("require foo\n".data))
          [⟨"zzz".data, "p".data⟩]) = none
    ∧ mainRun false ("require foo\n".data)
        (Except.ok [⟨"zzz".data, "p".data⟩])
        (fun _ => StatOutcome.notExists)
        = ⟨deleteLinesWithReplace ("require foo\n".data), 0, none⟩ :=
  C8_empty_match_ok ("require foo\n".data) [⟨"zzz".data, "p".data⟩]
    (fun _ => StatOutcome.notExists) (by decide)

/-- C9: a rule whose find field is empty matches every line, so it
appears once per manifest line in the match set and appending writes that
many identical directives. -/
theorem C9_empty_find_matches_all (content : List Char)
    (cmd : FindReplace) (h : cmd.find = []) :
    (∀ l : List Char, substrB cmd.find l = true)
    ∧ findMatchesInFile content [cmd]
        = List.replicate (scanLines content).length cmd
    ∧ ∀ c0 : List Char,
        appendModReplace c0 (findMatchesInFile content [cmd])
          = c0 ++ (List.replicate (scanLines content).length
              (replaceLine cmd)).flatten :=
by
  have hsub : ∀ l : List Char, substrB cmd.find l = true := by
    intro l
    rw [h]
    exact substrB_nil l
  have hmatch : findMatchesInFile content [cmd]
      = List.replicate (scanLines content).length cmd := by
    rw [findMatchesInFile_eq]
    have hline : ∀ l ∈ scanLines content,
        List.filter (fun c => substrB c.find l) [cmd] = [cmd] := by
      intro l _
      simp [List.filter_cons, hsub l]
    rw [List.flatMap_def, List.map_congr_left hline]
    exact flatten_map_const_singleton (scanLines content) cmd
  refine ⟨hsub, hmatch, fun c0 => ?_⟩
  rw [appendModReplace_eq, hmatch, List.flatMap_def, List.map_replicate]

/-- C9 (witness): the empty-find rule on a two-line manifest. -/
theorem C9_empty_find_matches_all_witness :
    substrB (FindReplace.mk [] "p".data).find "xyz".data = true
    ∧ findMatchesInFile ("a\nb".data) [⟨[], "p".data⟩]
        = List.replicate (scanLines ("a\nb".data)).length ⟨[], "p".data⟩
    ∧ appendModReplace ("q\n".data)
        (findMatchesInFile ("a\nb".data) [⟨[], "p".data⟩])
        = "q\n".data ++ (List.replicate (scanLines ("a\nb".data)).length
            (replaceLine ⟨[], "p".data⟩)).flatten :=
by
  have h := C9_empty_find_matches_all ("a\nb".data) ⟨[], "p".data⟩ rfl
  exact ⟨h.1 ("xyz".data), h.2.1, h.2.2 ("q\n".data)⟩

end Goreplace
